import Mathlib

/-!
Verification of the sliding-block puzzle state-space engine.

The Python sources embedded here:
* `simpleShortestMoves.py` (and the identical move-generation code in
  `potentialMoves.py`): occupancy map, validity-checked move generator,
  canonicalizer, BFS with a goal adjusted for the target piece's height.
* `shortestMoves.py`: unchecked move generator, BFS from a given state with the
  goal `anchor = (rows-1, 0)`, hyper-node and super-node enumerators.
* `graph/getToEnd.py`: super-node states carrying extra obstacle blocks,
  validity-checked moves treating the blocks as obstacles, BFS whose goal is
  that the target's footprint covers the bottom-left cell, returning an
  explicit no-solution marker.

Machine integers are embedded as `Int` (board coordinates may go negative in
the unchecked search); grid dimensions are `Nat`.  Python's `sorted` on
`(label, row, col)` tuples is embedded as insertion sort by the lexicographic
order on `(String, Int, Int)` built from a computable three-way comparison.
Search loops take an explicit fuel argument; `none` marks fuel exhaustion and
is distinct from every value the Python code returns.
-/

/-! ## Piece and board data model -/

inductive PieceType where
  | t1x1 : PieceType
  | t1x2 : PieceType
  | t2x1 : PieceType
  | t2x2 : PieceType
deriving DecidableEq

/-- `get_piece_dimensions` from the sources: `(height, width)` per shape. -/
def get_piece_dimensions : PieceType → Nat × Nat
  | .t1x1 => (1, 1)
  | .t1x2 => (1, 2)
  | .t2x1 => (2, 1)
  | .t2x2 => (2, 2)

structure Piece where
  label : String
  piece_type : PieceType
  row : Int
  col : Int
deriving DecidableEq

def Piece.height (p : Piece) : Nat := (get_piece_dimensions p.piece_type).1

def Piece.width (p : Piece) : Nat := (get_piece_dimensions p.piece_type).2

/-- The cells covered by a rectangle of height `h`, width `w` anchored at
`(r, c)`, in the row-major order the Python loops produce. -/
def cells_at (r c : Int) (h w : Nat) : List (Int × Int) :=
  (List.range h).flatMap fun (i : Nat) =>
    (List.range w).map fun (j : Nat) => (r + (i : Int), c + (j : Int))

/-- The occupied-cell set (as a list) of a piece. -/
def piece_cells (p : Piece) : List (Int × Int) :=
  cells_at p.row p.col p.height p.width

/-- Puzzle configuration: `rows`, `cols`, `pieces`, `target` from
`puzzle_config.json`.  No goal cell and no mobility flag exist in the format
the sources consume. -/
structure PuzzleData where
  rows : Nat
  cols : Nat
  pieces : List Piece
  target : String
deriving DecidableEq

/-- `create_board_representation`: the occupancy dictionary, as a lookup
function.  Later pieces overwrite earlier ones on shared cells, exactly like
the Python `dict` writes. -/
def create_board_representation (pieces : List Piece) : Int × Int → Option String :=
  fun cell =>
    pieces.foldl (fun acc p => if cell ∈ piece_cells p then some p.label else acc) none

/-- `is_valid_move` from `simpleShortestMoves.py` / `potentialMoves.py` /
`getToEnd.py`: the shifted footprint must stay inside the board and may only
touch cells that are unoccupied or belong to the moving piece itself. -/
def is_valid_move (p : Piece) (nr nc : Int) (board : Int × Int → Option String)
    (rows cols : Nat) : Bool :=
  if nr < 0 ∨ nc < 0 ∨ nr + p.height > rows ∨ nc + p.width > cols then false
  else
    (cells_at nr nc p.height p.width).all fun cell =>
      match board cell with
      | some l => l == p.label
      | none => true

inductive Dir where
  | up : Dir
  | down : Dir
  | left : Dir
  | right : Dir
deriving DecidableEq

/-- The `MOVES` dictionary, in its Python insertion order. -/
def MOVES : List (Dir × Int × Int) :=
  [(Dir.up, -1, 0), (Dir.down, 1, 0), (Dir.left, 0, -1), (Dir.right, 0, 1)]

def dir_delta : Dir → Int × Int
  | .up => (-1, 0)
  | .down => (1, 0)
  | .left => (0, -1)
  | .right => (0, 1)

/-! ## Canonicalizer: `board_to_tuple`

Python sorts the `(label, row, col)` tuples lexicographically (strings by code
point).  We build the same order from a computable three-way comparison so
that concrete keys evaluate inside the kernel. -/

def chars_cmp : List Char → List Char → Ordering
  | [], [] => .eq
  | [], _ :: _ => .lt
  | _ :: _, [] => .gt
  | a :: as, b :: bs =>
    if a < b then .lt
    else if b < a then .gt
    else chars_cmp as bs

def str_cmp (a b : String) : Ordering := chars_cmp a.data b.data

def int_cmp (i j : Int) : Ordering :=
  if i < j then .lt else if j < i then .gt else .eq

/-- Lexicographic combination of two three-way comparisons. -/
def prod_cmp {α β : Type} (f : α → α → Ordering) (g : β → β → Ordering)
    (x y : α × β) : Ordering :=
  (f x.1 y.1).then (g x.2 y.2)

/-- Lexicographic three-way comparison on `(label, row, col)` keys. -/
def key_cmp (a b : String × Int × Int) : Ordering :=
  prod_cmp str_cmp (prod_cmp int_cmp int_cmp) a b

def key_le (a b : String × Int × Int) : Prop := key_cmp a b ≠ .gt

instance : DecidableRel key_le := fun a b => by
  unfold key_le; infer_instance

/-- `board_to_tuple` from `shortestMoves.py` / `simpleShortestMoves.py` /
`potentialMoves.py`: the sorted list of `(label, row, col)` triples. -/
def board_to_tuple (pieces : List Piece) : List (String × Int × Int) :=
  List.insertionSort key_le (pieces.map fun p => (p.label, p.row, p.col))

/-! ## Shared helpers for the searches -/

/-- Update every piece carrying the given label to the new anchor (the Python
loops in `shortestMoves.py` and `simpleShortestMoves.py` have no `break`). -/
def apply_move_all (pieces : List Piece) (lbl : String) (nr nc : Int) : List Piece :=
  pieces.map fun q => if q.label = lbl then { q with row := nr, col := nc } else q

/-- The body of the validity-checking generators: for each entry of `MOVES`, in
order, keep the move when `is_valid_move` accepts the shifted anchor. -/
def valid_piece_moves (board : Int × Int → Option String) (rows cols : Nat)
    (p : Piece) : List (Dir × Int × Int) :=
  MOVES.filterMap fun m =>
    if is_valid_move p (p.row + m.2.1) (p.col + m.2.2) board rows cols then
      some (m.1, p.row + m.2.1, p.col + m.2.2)
    else none

/-- All labels in the list are distinct (the `BoardState` assumption that makes
the per-label move dictionary unambiguous). -/
def NodupLabels (pieces : List Piece) : Prop := (pieces.map Piece.label).Nodup

/-- The occupied-cell sets of the pieces are pairwise disjoint (the `BoardState`
invariant of the specification). -/
def DisjointPieces (pieces : List Piece) : Prop :=
  List.Pairwise (fun p q => ∀ cell, cell ∈ piece_cells p → cell ∉ piece_cells q) pieces

/-- A cell lies inside the `[0, rows) × [0, cols)` grid. -/
def cell_in_grid (rows cols : Nat) (cell : Int × Int) : Prop :=
  0 ≤ cell.1 ∧ cell.1 < rows ∧ 0 ≤ cell.2 ∧ cell.2 < cols

/-- The label-to-anchor lookup a `BoardState` denotes. -/
def anchor_of (pieces : List Piece) (l : String) : Option (Int × Int) :=
  (pieces.find? fun p => p.label == l).map fun p => (p.row, p.col)

/-! ## Generic breadth-first search

All three Python searches share this loop shape: a FIFO frontier of
`(state, move history)` pairs, a visited set of canonical keys seeded with the
initial state, goal test on dequeue before expansion, successors enqueued (and
marked visited) immediately when their key is unseen.  The loop is embedded
with explicit fuel; `none` means the fuel ran out and is distinct from every
value the Python functions return. -/

structure Search (σ μ κ : Type) where
  succ : σ → List (σ × μ)
  goal : σ → Bool
  key : σ → κ

/-- One enqueue attempt: skip a successor whose key is already visited,
otherwise append it to the frontier and mark its key. -/
def bfs_enqueue {σ μ κ : Type} [DecidableEq κ] (A : Search σ μ κ) (h : List μ)
    (qv : List (σ × List μ) × List κ) (tm : σ × μ) : List (σ × List μ) × List κ :=
  if A.key tm.1 ∈ qv.2 then qv
  else (qv.1 ++ [(tm.1, h ++ [tm.2])], qv.2 ++ [A.key tm.1])

def bfs_loop {σ μ κ : Type} [DecidableEq κ] (A : Search σ μ κ) :
    Nat → List (σ × List μ) → List κ → Option (Option (List μ × σ))
  | 0, _, _ => none
  | _ + 1, [], _ => some none
  | fuel + 1, (s, h) :: rest, visited =>
    if A.goal s then some (some (h, s))
    else
      let qv := (A.succ s).foldl (bfs_enqueue A h) (rest, visited)
      bfs_loop A fuel qv.1 qv.2

/-- `BfsPath A s0 h s`: state `s` is reached from `s0` by the successive
successor steps recorded in `h`. -/
inductive BfsPath {σ μ κ : Type} (A : Search σ μ κ) (s0 : σ) : List μ → σ → Prop where
  | nil : BfsPath A s0 [] s0
  | snoc {h : List μ} {s t : σ} {m : μ} :
      BfsPath A s0 h s → (t, m) ∈ A.succ s → BfsPath A s0 (h ++ [m]) t

/-! ## `simpleShortestMoves.py` (move generation identical to `potentialMoves.py`) -/

namespace SimpleShortestMoves

/-- `get_all_possible_moves` (lines 77-87): build the occupancy map once, then
filter the four candidate moves of each piece through `is_valid_move`.  The
Python `dict` keyed by label is embedded as its final lookup function: a later
piece with the same label overwrites an earlier entry. -/
def get_all_possible_moves (pieces : List Piece) (rows cols : Nat) :
    String → List (Dir × Int × Int) :=
  let board := create_board_representation pieces
  pieces.foldl
    (fun d p => fun l => if l = p.label then valid_piece_moves board rows cols p else d l)
    (fun _ => [])

/-- The expansion of one dequeued state (lines 120-129): every piece in list
order, every generated move of that piece, update all pieces with its label. -/
def successors (rows cols : Nat) (pieces : List Piece) :
    List (List Piece × (String × Dir)) :=
  let dict := get_all_possible_moves pieces rows cols
  pieces.flatMap fun p =>
    (dict p.label).map fun m =>
      (apply_move_all pieces p.label m.2.1 m.2.2, (p.label, m.1))

/-- The goal test at lines 114-117: the target's anchor row equals
`rows - height` and its column is `0` (so the piece's footprint reaches the
bottom-left corner).  The `StopIteration` crash of `next(...)` on a state
missing the target is not modelled; theorems about this search only use states
that contain the target. -/
def goal_test (rows : Nat) (target : String) (pieces : List Piece) : Bool :=
  match pieces.find? (fun p => p.label == target) with
  | some tp => tp.row == (rows : Int) - (tp.height : Int) && tp.col == 0
  | none => false

def search (pd : PuzzleData) :
    Search (List Piece) (String × Dir) (List (String × Int × Int)) :=
  { succ := successors pd.rows pd.cols
    goal := goal_test pd.rows pd.target
    key := board_to_tuple }

/-- `find_shortest_target_path` (lines 97-130).  `some h` is the list the
Python function returns (`[]` both for a no-solution exhaustion and never for a
found goal at distance zero with history `[]` — the returned value cannot tell
these apart); `none` is fuel exhaustion. -/
def find_shortest_target_path (pd : PuzzleData) (fuel : Nat) :
    Option (List (String × Dir)) :=
  match bfs_loop (search pd) fuel [(pd.pieces, [])] [board_to_tuple pd.pieces] with
  | none => none
  | some none => some []
  | some (some (h, _)) => some h

end SimpleShortestMoves

/-! ## `shortestMoves.py` -/

namespace ShortestMoves

/-- `get_all_possible_moves` (lines 46-57): all four direction candidates are
appended with no bounds or collision check; the `rows`/`cols` parameters are
unused, exactly as in the source. -/
def piece_moves (p : Piece) : List (Dir × Int × Int) :=
  MOVES.map fun m => (m.1, p.row + m.2.1, p.col + m.2.2)

def get_all_possible_moves (pieces : List Piece) (rows cols : Nat) :
    String → List (Dir × Int × Int) :=
  pieces.foldl (fun d p => fun l => if l = p.label then piece_moves p else d l)
    (fun _ => [])

/-- Expansion in `find_shortest_target_path_from_state` (lines 94-106); the
`except StopIteration: continue` at lines 86-89 pops a state missing the
target without expanding it, embedded as an empty successor list. -/
def successors (pd : PuzzleData) (pieces : List Piece) :
    List (List Piece × (String × Dir)) :=
  match pieces.find? (fun p => p.label == pd.target) with
  | none => []
  | some _ =>
    let dict := get_all_possible_moves pieces pd.rows pd.cols
    pieces.flatMap fun p =>
      (dict p.label).map fun m =>
        (apply_move_all pieces p.label m.2.1 m.2.2, (p.label, m.1))

/-- The goal test at line 91: the target's anchor equals `(rows - 1, 0)`,
whatever the target's shape. -/
def goal_test (rows : Nat) (target : String) (pieces : List Piece) : Bool :=
  match pieces.find? (fun p => p.label == target) with
  | some tp => tp.row == (rows : Int) - 1 && tp.col == 0
  | none => false

def search (pd : PuzzleData) :
    Search (List Piece) (String × Dir) (List (String × Int × Int)) :=
  { succ := successors pd
    goal := goal_test pd.rows pd.target
    key := board_to_tuple }

/-- `find_shortest_target_path_from_state` (lines 63-108): an early `[]` when
the target label is missing (lines 74-79, before the loop), otherwise the BFS
loop; `[]` is also what the exhausted loop returns at line 108. -/
def find_shortest_target_path_from_state (initial_pieces : List Piece)
    (pd : PuzzleData) (fuel : Nat) : Option (List (String × Dir)) :=
  if (initial_pieces.find? fun p => p.label == pd.target).isNone then some []
  else
    match bfs_loop (search pd) fuel [(initial_pieces, [])]
        [board_to_tuple initial_pieces] with
    | none => none
    | some none => some []
    | some (some (h, _)) => some h

/-- `itertools.combinations`, in its enumeration order. -/
def combinations {α : Type} : Nat → List α → List (List α)
  | 0, _ => [[]]
  | _ + 1, [] => []
  | k + 1, x :: xs => ((combinations k xs).map fun c => x :: c) ++ combinations (k + 1) xs

/-- Candidate 1x2 placements (line 137). -/
def placements_h (rows cols : Nat) : List ((Int × Int) × (Int × Int)) :=
  (List.range rows).flatMap fun (r : Nat) =>
    (List.range (cols - 1)).map fun (c : Nat) =>
      (((r : Int), (c : Int)), ((r : Int), (c : Int) + 1))

/-- Candidate 2x1 placements (line 138). -/
def placements_v (rows cols : Nat) : List ((Int × Int) × (Int × Int)) :=
  (List.range (rows - 1)).flatMap fun (r : Nat) =>
    (List.range cols).map fun (c : Nat) =>
      (((r : Int), (c : Int)), ((r : Int) + 1, (c : Int)))

/-- The sequential overlap check at lines 145-154: walk the chosen placements,
inserting their two cells into the occupied set and rejecting on a repeat.
Only the chosen (movable) placements take part — fixed pieces are never
consulted. -/
def placements_ok (ps : List ((Int × Int) × (Int × Int))) : Bool :=
  (ps.foldl
    (fun acc pl =>
      match acc with
      | none => none
      | some occ =>
        if pl.1 ∈ occ ∨ pl.2 ∈ occ then none else some (pl.2 :: pl.1 :: occ))
    (some [])).isSome

/-- The movable split at line 123: pieces of type 1x2 or 2x1. -/
def hyper_movable (pd : PuzzleData) : List Piece :=
  pd.pieces.filter fun p =>
    p.piece_type == PieceType.t1x2 || p.piece_type == PieceType.t2x1

/-- The pieces `generate_hypernodes` treats as fixed (line 124): everything
that is not a 1x2 or 2x1 domino, kept at its configured position. -/
def hyper_fixed (pd : PuzzleData) : List Piece :=
  pd.pieces.filter fun p =>
    ¬ (p.piece_type == PieceType.t1x2 || p.piece_type == PieceType.t2x1)

def place_piece (p : Piece) (pl : (Int × Int) × (Int × Int)) : Piece :=
  { p with row := pl.1.1, col := pl.1.2 }

/-- Build one candidate state (lines 155-173): placed 1x2 pieces, then placed
2x1 pieces, then the fixed pieces unchanged. -/
def hyper_state_of (pd : PuzzleData)
    (comb_h comb_v : List ((Int × Int) × (Int × Int))) : List Piece :=
  (((hyper_movable pd).filter fun p => p.piece_type == PieceType.t1x2).zip comb_h).map
      (fun pc => place_piece pc.1 pc.2)
    ++ (((hyper_movable pd).filter fun p => p.piece_type == PieceType.t2x1).zip comb_v).map
      (fun pc => place_piece pc.1 pc.2)
    ++ hyper_fixed pd

def hyper_candidates (pd : PuzzleData) : List (List Piece) :=
  (combinations ((hyper_movable pd).filter fun p => p.piece_type == PieceType.t1x2).length
      (placements_h pd.rows pd.cols)).flatMap fun ch =>
    (combinations ((hyper_movable pd).filter fun p => p.piece_type == PieceType.t2x1).length
        (placements_v pd.rows pd.cols)).filterMap fun cv =>
      if placements_ok (ch ++ cv) then some (hyper_state_of pd ch cv) else none

/-- `generate_hypernodes` (lines 114-179): the candidates above, deduplicated
by `board_to_tuple` in arrival order. -/
def generate_hypernodes (pd : PuzzleData) : List (List Piece) :=
  ((hyper_candidates pd).foldl
    (fun acc st =>
      if board_to_tuple st ∈ acc.1 then acc
      else (acc.1 ++ [board_to_tuple st], acc.2 ++ [st]))
    ([], [])).2

/-- Row-major enumeration of the grid (line 187 builds this as a set). -/
def total_cells (rows cols : Nat) : List (Int × Int) :=
  (List.range rows).flatMap fun (r : Nat) =>
    (List.range cols).map fun (c : Nat) => ((r : Int), (c : Int))

/-- The cells covered by the pieces of a state (lines 188-198). -/
def occupied_cells (hyper_state : List Piece) : List (Int × Int) :=
  hyper_state.flatMap piece_cells

/-- `empty_spaces = list(total_cells - occupied)` (line 199); Python iterates
the set difference in unspecified order, embedded here in row-major order. -/
def empty_spaces (hyper_state : List Piece) (pd : PuzzleData) : List (Int × Int) :=
  (total_cells pd.rows pd.cols).filter fun cell =>
    ¬ cell ∈ occupied_cells hyper_state

/-- One added obstacle (lines 204-213): a fresh 1x1 piece labelled
`Block1` … `Block4` on the chosen cell. -/
def make_block (idx : Nat) (cell : Int × Int) : Piece :=
  { label := "Block" ++ toString (idx + 1)
    piece_type := PieceType.t1x1
    row := cell.1
    col := cell.2 }

/-- `generate_supernodes` (lines 181-215): when at least 4 cells are empty,
one super-state per 4-combination of empty cells, each appending 4 unit
blocks to the hyper-state; otherwise the empty list. -/
def generate_supernodes (hyper_state : List Piece) (pd : PuzzleData) :
    List (List Piece) :=
  if (empty_spaces hyper_state pd).length ≥ 4 then
    (combinations 4 (empty_spaces hyper_state pd)).map fun combo =>
      hyper_state ++ (combo.enum.map fun ic => make_block ic.1 ic.2)
  else []

end ShortestMoves

/-! ## `graph/getToEnd.py` -/

namespace GetToEnd

/-- A super-node state: pieces plus immovable extra obstacle cells. -/
structure SuperState where
  pieces : List Piece
  extra_blocks : List (Int × Int)
deriving DecidableEq

/-- The board of `get_all_possible_moves` (lines 77-79): occupancy from the
pieces, then every extra block overwrites its cell with the obstacle label. -/
def board_with_extras (st : SuperState) : Int × Int → Option String :=
  fun cell =>
    st.extra_blocks.foldl (fun acc c => if c = cell then some ("X") else acc)
      (create_board_representation st.pieces cell)

/-- `get_all_possible_moves` (lines 71-87): moves are generated for the pieces
only; the extra blocks act purely as obstacles and never appear in the
dictionary. -/
def get_all_possible_moves (st : SuperState) (rows cols : Nat) :
    String → List (Dir × Int × Int) :=
  let board := board_with_extras st
  st.pieces.foldl
    (fun d p => fun l => if l = p.label then valid_piece_moves board rows cols p else d l)
    (fun _ => [])

/-- The update at lines 231-234 stops at the first matching piece (`break`). -/
def apply_move_first : List Piece → String → Int × Int → List Piece
  | [], _, _ => []
  | q :: qs, lbl, rc =>
    if q.label = lbl then { q with row := rc.1, col := rc.2 } :: qs
    else q :: apply_move_first qs lbl rc

def successors (pd : PuzzleData) (st : SuperState) :
    List (SuperState × (String × Dir)) :=
  let dict := get_all_possible_moves st pd.rows pd.cols
  st.pieces.flatMap fun p =>
    (dict p.label).map fun m =>
      ({ st with pieces := apply_move_first st.pieces p.label (m.2.1, m.2.2) },
        (p.label, m.1))

/-- `target_piece_in_bottom_left` (lines 199-206): the target's footprint
covers the cell `(rows - 1, 0)`. -/
def target_piece_in_bottom_left (p : Piece) (rows cols : Nat) : Bool :=
  decide (((rows : Int) - 1, (0 : Int)) ∈ piece_cells p)

/-- The goal test at lines 223-225: `if target_piece and
target_piece_in_bottom_left(...)`. -/
def goal_test (pd : PuzzleData) (target : String) (st : SuperState) : Bool :=
  match st.pieces.find? (fun p => p.label == target) with
  | some tp => target_piece_in_bottom_left tp pd.rows pd.cols
  | none => false

def cell_cmp : (Int × Int) → (Int × Int) → Ordering := prod_cmp int_cmp int_cmp

def cell_le (a b : Int × Int) : Prop := cell_cmp a b ≠ .gt

instance : DecidableRel cell_le := fun a b => by
  unfold cell_le; infer_instance

/-- The pieces part of `board_to_tuple` (line 94). -/
def pieces_key (pieces : List Piece) : List (String × Int × Int) :=
  board_to_tuple pieces

/-- `board_to_tuple` (lines 89-96): sorted piece triples paired with the
sorted extra blocks. -/
def state_key (st : SuperState) :
    List (String × Int × Int) × List (Int × Int) :=
  (pieces_key st.pieces, List.insertionSort cell_le st.extra_blocks)

def search (pd : PuzzleData) (target : String) :
    Search SuperState (String × Dir)
      (List (String × Int × Int) × List (Int × Int)) :=
  { succ := successors pd
    goal := goal_test pd target
    key := state_key }

/-- `find_shortest_path_from_supernode` (lines 208-239).  `some none` is the
Python `(None, None)` no-solution return, `some (some (moves, state))` the
found solution with its solved state; `none` is fuel exhaustion. -/
def find_shortest_path_from_supernode (initial_state : SuperState)
    (pd : PuzzleData) (target_label : String) (fuel : Nat) :
    Option (Option (List (String × Dir) × SuperState)) :=
  bfs_loop (search pd target_label) fuel [(initial_state, [])]
    [state_key initial_state]

end GetToEnd

/-! ## Order facts for the comparison functions -/

theorem chars_cmp_eq_iff : ∀ a b : List Char, chars_cmp a b = .eq ↔ a = b
  | [], [] => by simp [chars_cmp]
  | [], _ :: _ => by simp [chars_cmp]
  | _ :: _, [] => by simp [chars_cmp]
  | a :: as, b :: bs => by
    by_cases h1 : a < b
    · simp only [chars_cmp, if_pos h1]
      constructor
      · intro h; cases h
      · intro h
        injection h with hab _
        subst hab
        exact absurd h1 (lt_irrefl a)
    · by_cases h2 : b < a
      · simp only [chars_cmp, if_neg h1, if_pos h2]
        constructor
        · intro h; cases h
        · intro h
          injection h with hab _
          subst hab
          exact absurd h2 (lt_irrefl a)
      · have hab : a = b := le_antisymm (not_lt.mp h2) (not_lt.mp h1)
        subst hab
        simp only [chars_cmp, if_neg h1, if_neg h2, chars_cmp_eq_iff as bs]
        simp

theorem chars_cmp_swap : ∀ a b : List Char, chars_cmp b a = (chars_cmp a b).swap
  | [], [] => by simp [chars_cmp, Ordering.swap]
  | [], _ :: _ => by simp [chars_cmp, Ordering.swap]
  | _ :: _, [] => by simp [chars_cmp, Ordering.swap]
  | a :: as, b :: bs => by
    by_cases h1 : a < b
    · have h2 : ¬ b < a := lt_asymm h1
      simp [chars_cmp, h1, h2, Ordering.swap]
    · by_cases h2 : b < a
      · simp [chars_cmp, h1, h2, Ordering.swap]
      · simp [chars_cmp, h1, h2, Ordering.swap, chars_cmp_swap as bs]

theorem chars_cmp_lt_trans :
    ∀ a b c : List Char, chars_cmp a b = .lt → chars_cmp b c = .lt →
      chars_cmp a c = .lt := by
  intro a
  induction a with
  | nil =>
    intro b c hab hbc
    cases b with
    | nil => cases hab
    | cons y ys =>
      cases c with
      | nil => cases hbc
      | cons z zs => simp [chars_cmp]
  | cons x xs ih =>
    intro b c hab hbc
    cases b with
    | nil => cases hab
    | cons y ys =>
      cases c with
      | nil => cases hbc
      | cons z zs =>
        simp only [chars_cmp] at hab hbc ⊢
        by_cases hxy : x < y
        · by_cases hyz : y < z
          · simp [lt_trans hxy hyz]
          · by_cases hzy : z < y
            · simp [hyz, hzy] at hbc
            · have hbc' : y = z := le_antisymm (not_lt.mp hzy) (not_lt.mp hyz)
              subst hbc'
              simp [hxy]
        · by_cases hyx : y < x
          · simp [hxy, hyx] at hab
          · have hab' : x = y := le_antisymm (not_lt.mp hyx) (not_lt.mp hxy)
            subst hab'
            simp only [if_neg hxy, if_neg hyx] at hab
            by_cases hyz : x < z
            · simp [hyz]
            · by_cases hzy : z < x
              · simp [hyz, hzy] at hbc
              · simp only [if_neg hyz, if_neg hzy] at hbc ⊢
                exact ih ys zs hab hbc

theorem str_cmp_eq_iff (a b : String) : str_cmp a b = .eq ↔ a = b := by
  unfold str_cmp
  rw [chars_cmp_eq_iff]
  constructor
  · intro h; exact congrArg String.mk h
  · intro h; rw [h]

theorem str_cmp_swap (a b : String) : str_cmp b a = (str_cmp a b).swap :=
  chars_cmp_swap a.data b.data

theorem str_cmp_lt_trans {a b c : String} (h1 : str_cmp a b = .lt)
    (h2 : str_cmp b c = .lt) : str_cmp a c = .lt :=
  chars_cmp_lt_trans a.data b.data c.data h1 h2

theorem int_cmp_eq_iff (i j : Int) : int_cmp i j = .eq ↔ i = j := by
  unfold int_cmp
  by_cases h1 : i < j
  · simp only [if_pos h1]
    constructor
    · intro h; cases h
    · intro h; omega
  · by_cases h2 : j < i
    · simp only [if_neg h1, if_pos h2]
      constructor
      · intro h; cases h
      · intro h; omega
    · have h3 : i = j := by omega
      simp [h1, h2, h3]

theorem int_cmp_swap (i j : Int) : int_cmp j i = (int_cmp i j).swap := by
  unfold int_cmp
  by_cases h1 : i < j
  · have h2 : ¬ j < i := by omega
    simp [h1, h2, Ordering.swap]
  · by_cases h2 : j < i
    · simp [h1, h2, Ordering.swap]
    · simp [h1, h2, Ordering.swap]

theorem int_cmp_lt_trans {i j k : Int} (h1 : int_cmp i j = .lt)
    (h2 : int_cmp j k = .lt) : int_cmp i k = .lt := by
  unfold int_cmp at *
  by_cases hij : i < j
  · by_cases hjk : j < k
    · have h : i < k := by omega
      simp [h]
    · by_cases hkj : k < j <;> simp [hjk, hkj] at h2
  · by_cases hji : j < i <;> simp [hij, hji] at h1

theorem prod_cmp_eq_iff {α β : Type} (f : α → α → Ordering) (g : β → β → Ordering)
    (hf : ∀ a b, f a b = .eq ↔ a = b) (hg : ∀ a b, g a b = .eq ↔ a = b)
    (x y : α × β) : prod_cmp f g x y = .eq ↔ x = y := by
  obtain ⟨x1, x2⟩ := x
  obtain ⟨y1, y2⟩ := y
  unfold prod_cmp
  simp only [Prod.mk.injEq]
  rcases h : f x1 y1 with _ | _ | _
  · constructor
    · intro hh; cases hh
    · rintro ⟨rfl, rfl⟩
      rw [(hf x1 x1).mpr rfl] at h
      cases h
  · have hx : x1 = y1 := (hf _ _).mp h
    subst hx
    simp only [Ordering.then]
    rw [hg]
    simp
  · constructor
    · intro hh; cases hh
    · rintro ⟨rfl, rfl⟩
      rw [(hf x1 x1).mpr rfl] at h
      cases h

theorem prod_cmp_swap {α β : Type} (f : α → α → Ordering) (g : β → β → Ordering)
    (hf : ∀ a b, f b a = (f a b).swap) (hg : ∀ a b, g b a = (g a b).swap)
    (x y : α × β) : prod_cmp f g y x = (prod_cmp f g x y).swap := by
  obtain ⟨x1, x2⟩ := x
  obtain ⟨y1, y2⟩ := y
  unfold prod_cmp
  rw [hf x1 y1, hg x2 y2]
  rcases f x1 y1 with _ | _ | _ <;> simp [Ordering.then, Ordering.swap]

theorem prod_cmp_lt_trans {α β : Type} (f : α → α → Ordering) (g : β → β → Ordering)
    (hf_eq : ∀ a b, f a b = .eq ↔ a = b)
    (hf : ∀ a b c, f a b = .lt → f b c = .lt → f a c = .lt)
    (hg : ∀ a b c, g a b = .lt → g b c = .lt → g a c = .lt)
    {x y z : α × β} (h1 : prod_cmp f g x y = .lt) (h2 : prod_cmp f g y z = .lt) :
    prod_cmp f g x z = .lt := by
  obtain ⟨x1, x2⟩ := x
  obtain ⟨y1, y2⟩ := y
  obtain ⟨z1, z2⟩ := z
  simp only [prod_cmp] at h1 h2 ⊢
  rcases hxy : f x1 y1 with _ | _ | _ <;> rw [hxy] at h1 <;>
    simp only [Ordering.then] at h1
  · rcases hyz : f y1 z1 with _ | _ | _ <;> rw [hyz] at h2 <;>
      simp only [Ordering.then] at h2
    · rw [hf x1 y1 z1 hxy hyz]
      simp [Ordering.then]
    · have hk : y1 = z1 := (hf_eq _ _).mp hyz
      subst hk
      rw [hxy]
      simp [Ordering.then]
    · cases h2
  · have hk : x1 = y1 := (hf_eq _ _).mp hxy
    subst hk
    rcases hyz : f x1 z1 with _ | _ | _
    · simp [Ordering.then]
    · simp only [Ordering.then]
      rw [hyz] at h2
      simp only [Ordering.then] at h2
      exact hg x2 y2 z2 h1 h2
    · rw [hyz] at h2
      simp only [Ordering.then] at h2
      cases h2
  · cases h1

theorem key_cmp_eq_iff (a b : String × Int × Int) : key_cmp a b = .eq ↔ a = b := by
  unfold key_cmp
  exact prod_cmp_eq_iff _ _ str_cmp_eq_iff
    (prod_cmp_eq_iff _ _ int_cmp_eq_iff int_cmp_eq_iff) a b

theorem key_cmp_swap (a b : String × Int × Int) : key_cmp b a = (key_cmp a b).swap := by
  unfold key_cmp
  exact prod_cmp_swap _ _ str_cmp_swap
    (prod_cmp_swap _ _ int_cmp_swap int_cmp_swap) a b

theorem key_cmp_lt_trans {a b c : String × Int × Int} (h1 : key_cmp a b = .lt)
    (h2 : key_cmp b c = .lt) : key_cmp a c = .lt := by
  unfold key_cmp at *
  refine prod_cmp_lt_trans str_cmp (prod_cmp int_cmp int_cmp) str_cmp_eq_iff
    (fun _ _ _ hab hbc => str_cmp_lt_trans hab hbc) ?_ h1 h2
  intro u v w hab hbc
  exact prod_cmp_lt_trans int_cmp int_cmp int_cmp_eq_iff
    (fun _ _ _ h h' => int_cmp_lt_trans h h')
    (fun _ _ _ h h' => int_cmp_lt_trans h h') hab hbc

instance : IsTotal (String × Int × Int) key_le := by
  constructor
  intro a b
  unfold key_le
  rcases h : key_cmp a b with _ | _ | _
  · left; simp [h]
  · left; simp [h]
  · right
    rw [key_cmp_swap, h]
    simp [Ordering.swap]

instance : IsTrans (String × Int × Int) key_le := by
  constructor
  intro a b c hab hbc
  unfold key_le at *
  rcases h1 : key_cmp a b with _ | _ | _
  · rcases h2 : key_cmp b c with _ | _ | _
    · simp [key_cmp_lt_trans h1 h2]
    · have : b = c := (key_cmp_eq_iff _ _).mp h2
      subst this
      simp [h1]
    · exact absurd h2 hbc
  · have : a = b := (key_cmp_eq_iff _ _).mp h1
    subst this
    exact hbc
  · exact absurd h1 hab

instance : IsAntisymm (String × Int × Int) key_le := by
  constructor
  intro a b hab hba
  unfold key_le at *
  rcases h : key_cmp a b with _ | _ | _
  · rw [key_cmp_swap, h] at hba
    simp [Ordering.swap] at hba
  · exact (key_cmp_eq_iff _ _).mp h
  · exact absurd h hab

/-! ## Canonicalizer lemmas -/

/-- Sorting by `key_le` sends permuted piece lists to the same key. -/
theorem board_to_tuple_perm {p1 p2 : List Piece} (h : p1.Perm p2) :
    board_to_tuple p1 = board_to_tuple p2 := by
  unfold board_to_tuple
  refine List.eq_of_perm_of_sorted ?_ (List.sorted_insertionSort key_le _)
    (List.sorted_insertionSort key_le _)
  exact (List.perm_insertionSort key_le _).trans
    ((h.map _).trans (List.perm_insertionSort key_le _).symm)

/-- Keys agree exactly when the two lists carry the same multiset of
`(label, row, col)` triples. -/
theorem board_to_tuple_eq_iff (p1 p2 : List Piece) :
    board_to_tuple p1 = board_to_tuple p2 ↔
      (p1.map fun p => (p.label, p.row, p.col)).Perm
        (p2.map fun p => (p.label, p.row, p.col)) := by
  constructor
  · intro h
    have h1 := List.perm_insertionSort key_le (p1.map fun p => (p.label, p.row, p.col))
    have h2 := List.perm_insertionSort key_le (p2.map fun p => (p.label, p.row, p.col))
    refine h1.symm.trans ?_
    unfold board_to_tuple at h
    rw [h]
    exact h2
  · intro h
    unfold board_to_tuple
    exact List.eq_of_perm_of_sorted
      ((List.perm_insertionSort key_le _).trans
        (h.trans (List.perm_insertionSort key_le _).symm))
      (List.sorted_insertionSort key_le _) (List.sorted_insertionSort key_le _)

/-- Under distinct labels, the anchor lookup is characterised by membership of
the triple in the mapped list. -/
theorem anchor_of_eq_some {pieces : List Piece} (hnd : NodupLabels pieces)
    (l : String) (rc : Int × Int) :
    anchor_of pieces l = some rc ↔
      (l, rc.1, rc.2) ∈ pieces.map fun p => (p.label, p.row, p.col) := by
  unfold anchor_of
  rw [Option.map_eq_some']
  constructor
  · rintro ⟨q, hfind, hq⟩
    have hqpred := List.find?_some hfind
    have hmem := List.mem_of_find?_eq_some hfind
    have hlabel : q.label = l := by simpa using hqpred
    refine List.mem_map.mpr ⟨q, hmem, ?_⟩
    rw [hlabel]
    rw [← hq]
  · intro h
    rcases List.mem_map.mp h with ⟨q, hq, hq2⟩
    injection hq2 with hl hrc
    have hsome : (pieces.find? fun p => p.label == l).isSome := by
      rw [List.find?_isSome]
      exact ⟨q, hq, by simp [hl]⟩
    rcases Option.isSome_iff_exists.mp hsome with ⟨q', hfind⟩
    have hlabel' : q'.label = l := by simpa using List.find?_some hfind
    have hmem' := List.mem_of_find?_eq_some hfind
    have hqq : q = q' := List.inj_on_of_nodup_map hnd hq hmem' (by rw [hl, hlabel'])
    refine ⟨q', hfind, ?_⟩
    rw [← hqq]
    exact hrc

/-- Absence of the label kills the lookup. -/
theorem anchor_of_eq_none (pieces : List Piece) (l : String) :
    anchor_of pieces l = none ↔
      ∀ p ∈ pieces, p.label ≠ l := by
  unfold anchor_of
  rw [Option.map_eq_none', List.find?_eq_none]
  constructor
  · intro h p hp
    simpa using h p hp
  · intro h p hp
    simpa using h p hp

/-- Mapped triples of a nodup-labelled list are nodup. -/
theorem triples_nodup {pieces : List Piece} (hnd : NodupLabels pieces) :
    (pieces.map fun p => (p.label, p.row, p.col)).Nodup := by
  have : (pieces.map fun p => (p.label, p.row, p.col)).map Prod.fst =
      pieces.map Piece.label := by
    simp
  apply List.Nodup.of_map Prod.fst
  rw [this]
  exact hnd

/-! ## BFS soundness: whatever the loop returns as a solution was reached by
successor steps from a frontier entry and passed the goal test. -/

theorem bfs_enqueue_fold_inv {σ μ κ : Type} [DecidableEq κ] (A : Search σ μ κ)
    (s0 s : σ) (h : List μ) (hs : BfsPath A s0 h s) :
    ∀ (l : List (σ × μ)), (∀ tm ∈ l, tm ∈ A.succ s) →
      ∀ (qv : List (σ × List μ) × List κ),
        (∀ e ∈ qv.1, BfsPath A s0 e.2 e.1) →
        ∀ e ∈ (l.foldl (bfs_enqueue A h) qv).1, BfsPath A s0 e.2 e.1 := by
  intro l
  induction l with
  | nil => exact fun _ qv hq e he => hq e he
  | cons tm l ih =>
    intro hl qv hq
    rw [List.foldl_cons]
    refine ih (fun x hx => hl x (List.mem_cons_of_mem _ hx)) _ ?_
    intro e' he'
    unfold bfs_enqueue at he'
    by_cases hk : A.key tm.1 ∈ qv.2
    · rw [if_pos hk] at he'
      exact hq e' he'
    · rw [if_neg hk] at he'
      rcases List.mem_append.mp he' with hmem | hmem
      · exact hq e' hmem
      · rcases List.mem_singleton.mp hmem with rfl
        exact BfsPath.snoc hs (hl tm (List.mem_cons_self _ _))

theorem bfs_loop_sound {σ μ κ : Type} [DecidableEq κ] (A : Search σ μ κ) (s0 : σ) :
    ∀ (fuel : Nat) (q : List (σ × List μ)) (v : List κ),
      (∀ e ∈ q, BfsPath A s0 e.2 e.1) →
      ∀ (hist : List μ) (fin : σ),
        bfs_loop A fuel q v = some (some (hist, fin)) →
        A.goal fin = true ∧ BfsPath A s0 hist fin := by
  intro fuel
  induction fuel with
  | zero =>
    intro q v _ hist fin h
    cases h
  | succ fuel ih =>
    intro q v hq hist fin h
    cases q with
    | nil =>
      rw [bfs_loop] at h
      cases h
    | cons e rest =>
      obtain ⟨s, hh⟩ := e
      rw [bfs_loop] at h
      rcases hgoal : A.goal s with _ | _
      · rw [hgoal] at h
        simp only [Bool.false_eq_true, if_false] at h
        refine ih _ _ ?_ hist fin h
        exact bfs_enqueue_fold_inv A s0 s hh
          (hq (s, hh) (List.mem_cons_self _ _)) (A.succ s) (fun _ hx => hx)
          (rest, v) (fun x hx => hq x (List.mem_cons_of_mem _ hx))
      · rw [hgoal] at h
        simp only [if_true] at h
        injection h with h
        injection h with h
        injection h with h1 h2
        subst h1
        subst h2
        exact ⟨hgoal, hq (s, hh) (List.mem_cons_self _ _)⟩

instance (pieces : List Piece) : Decidable (NodupLabels pieces) := by
  unfold NodupLabels; infer_instance

instance (pieces : List Piece) : Decidable (DisjointPieces pieces) := by
  unfold DisjointPieces; infer_instance

instance (rows cols : Nat) (cell : Int × Int) : Decidable (cell_in_grid rows cols cell) := by
  unfold cell_in_grid; infer_instance

/-- C7: the canonicalizer `board_to_tuple` maps any two permuted list
representations of the same labelled placement to the identical key, and,
for states with distinct labels, keys are equal exactly when the
label-to-anchor mappings are equal — so two states that differ only in which
of two same-shaped, differently labelled pieces occupies which placement get
distinct keys. -/
theorem C7_canonicalizer_key :
    ∀ p1 p2 : List Piece,
      (p1.Perm p2 → board_to_tuple p1 = board_to_tuple p2) ∧
      (NodupLabels p1 → NodupLabels p2 →
        (board_to_tuple p1 = board_to_tuple p2 ↔
          ∀ l, anchor_of p1 l = anchor_of p2 l)) := by
  intro p1 p2
  constructor
  · exact board_to_tuple_perm
  · intro h1 h2
    rw [board_to_tuple_eq_iff]
    constructor
    · intro hperm l
      rcases ha : anchor_of p1 l with _ | rc
      · rcases hb : anchor_of p2 l with _ | rc'
        · rfl
        · exfalso
          have hmem2 := (anchor_of_eq_some h2 l rc').mp hb
          have hmem1 := hperm.mem_iff.mpr hmem2
          have hsome := (anchor_of_eq_some h1 l rc').mpr hmem1
          rw [ha] at hsome
          cases hsome
      · have hmem1 := (anchor_of_eq_some h1 l rc).mp ha
        have hmem2 := hperm.mem_iff.mp hmem1
        rw [(anchor_of_eq_some h2 l rc).mpr hmem2]
    · intro hanchor
      rw [List.perm_ext_iff_of_nodup (triples_nodup h1) (triples_nodup h2)]
      intro t
      obtain ⟨l, r, c⟩ := t
      constructor
      · intro hm
        have hs := (anchor_of_eq_some h1 l (r, c)).mpr hm
        exact (anchor_of_eq_some h2 l (r, c)).mp (by rw [← hanchor l]; exact hs)
      · intro hm
        have hs := (anchor_of_eq_some h2 l (r, c)).mpr hm
        exact (anchor_of_eq_some h1 l (r, c)).mp (by rw [hanchor l]; exact hs)

/-- C7 witness: reordering two labelled pieces keeps the key; swapping which of
two same-shaped, differently labelled unit pieces sits on which cell changes
the key. -/
theorem C7_canonicalizer_key_witness :
    board_to_tuple [⟨"A", .t1x1, 0, 0⟩, ⟨"B", .t1x1, 0, 1⟩] =
        board_to_tuple [⟨"B", .t1x1, 0, 1⟩, ⟨"A", .t1x1, 0, 0⟩] ∧
      board_to_tuple [⟨"A", .t1x1, 0, 0⟩, ⟨"B", .t1x1, 0, 1⟩] ≠
        board_to_tuple [⟨"A", .t1x1, 0, 1⟩, ⟨"B", .t1x1, 0, 0⟩] := by
  constructor
  · exact (C7_canonicalizer_key
      [⟨"A", .t1x1, 0, 0⟩, ⟨"B", .t1x1, 0, 1⟩]
      [⟨"B", .t1x1, 0, 1⟩, ⟨"A", .t1x1, 0, 0⟩]).1 (by decide)
  · intro h
    have h2 := ((C7_canonicalizer_key
        [⟨"A", .t1x1, 0, 0⟩, ⟨"B", .t1x1, 0, 1⟩]
        [⟨"A", .t1x1, 0, 1⟩, ⟨"B", .t1x1, 0, 0⟩]).2 (by decide) (by decide)).mp h
    exact absurd (h2 ("A")) (by decide)

/-! ## Goal-test characterisations -/

theorem shortestMoves_goal_test_eq_true {rows : Nat} {target : String}
    {pieces : List Piece} (h : ShortestMoves.goal_test rows target pieces = true) :
    ∃ tp, pieces.find? (fun p => p.label == target) = some tp ∧
      tp.row = (rows : Int) - 1 ∧ tp.col = 0 := by
  unfold ShortestMoves.goal_test at h
  rcases hfind : pieces.find? (fun p => p.label == target) with _ | tp
  · rw [hfind] at h
    cases h
  · rw [hfind] at h
    simp only [Bool.and_eq_true, beq_iff_eq] at h
    exact ⟨tp, hfind, h.1, h.2⟩

theorem getToEnd_goal_test_eq_true {pd : PuzzleData} {target : String}
    {st : GetToEnd.SuperState} (h : GetToEnd.goal_test pd target st = true) :
    ∃ tp, st.pieces.find? (fun p => p.label == target) = some tp ∧
      ((pd.rows : Int) - 1, (0 : Int)) ∈ piece_cells tp := by
  unfold GetToEnd.goal_test at h
  rcases hfind : st.pieces.find? (fun p => p.label == target) with _ | tp
  · rw [hfind] at h
    cases h
  · rw [hfind] at h
    unfold GetToEnd.target_piece_in_bottom_left at h
    exact ⟨tp, hfind, of_decide_eq_true h⟩

/-- C10: every BFS implementation hard-codes a bottom-left goal.  Whenever
`find_shortest_target_path_from_state` returns a non-empty move list, replaying
it under the search's successor relation reaches a state whose target piece has
its anchor exactly at `(rows-1, 0)` — with no constraint from the target's
shape; whenever `find_shortest_path_from_supernode` returns a solution, the
solved state's target footprint covers the cell `(rows-1, 0)`; and the two
goal predicates differ on a vertical-domino target anchored one row above the
corner (footprint covers the corner, anchor does not equal it).  No goal cell
appears in `PuzzleData`; both tests compute the corner from `rows` alone. -/
theorem C10_goal_hardcoded_bottom_left :
    (∀ (pieces : List Piece) (pd : PuzzleData) (fuel : Nat)
        (ms : List (String × Dir)),
        ShortestMoves.find_shortest_target_path_from_state pieces pd fuel = some ms →
        ms ≠ [] →
        ∃ fin : List Piece,
          BfsPath (ShortestMoves.search pd) pieces ms fin ∧
          ∃ tp, fin.find? (fun p => p.label == pd.target) = some tp ∧
            tp.row = (pd.rows : Int) - 1 ∧ tp.col = 0) ∧
    (∀ (st : GetToEnd.SuperState) (pd : PuzzleData) (target : String) (fuel : Nat)
        (ms : List (String × Dir)) (fin : GetToEnd.SuperState),
        GetToEnd.find_shortest_path_from_supernode st pd target fuel =
          some (some (ms, fin)) →
        BfsPath (GetToEnd.search pd target) st ms fin ∧
          ∃ tp, fin.pieces.find? (fun p => p.label == target) = some tp ∧
            ((pd.rows : Int) - 1, (0 : Int)) ∈ piece_cells tp) ∧
    (ShortestMoves.goal_test 2 "T" [⟨"T", .t2x1, 0, 0⟩] = false ∧
      GetToEnd.goal_test ⟨2, 1, [⟨"T", .t2x1, 0, 0⟩], "T"⟩ "T"
        ⟨[⟨"T", .t2x1, 0, 0⟩], []⟩ = true) := by
  refine ⟨?_, ?_, by decide, by decide⟩
  · intro pieces pd fuel ms hres hne
    unfold ShortestMoves.find_shortest_target_path_from_state at hres
    by_cases hnone : (pieces.find? fun p => p.label == pd.target).isNone
    · rw [if_pos hnone] at hres
      injection hres with hres
      exact absurd hres.symm hne
    · rw [if_neg hnone] at hres
      rcases hloop : bfs_loop (ShortestMoves.search pd) fuel [(pieces, [])]
          [board_to_tuple pieces] with _ | r
      · rw [hloop] at hres
        cases hres
      · rw [hloop] at hres
        cases r with
        | none =>
          injection hres with hres
          exact absurd hres.symm hne
        | some pr =>
          obtain ⟨h, fin⟩ := pr
          injection hres with hres
          subst hres
          have hsound := bfs_loop_sound (ShortestMoves.search pd) pieces fuel
            [(pieces, [])] [board_to_tuple pieces]
            (by
              intro e he
              rcases List.mem_singleton.mp he with rfl
              exact BfsPath.nil)
            h fin hloop
          rcases shortestMoves_goal_test_eq_true hsound.1 with ⟨tp, hfind, hr, hc⟩
          exact ⟨fin, hsound.2, tp, hfind, hr, hc⟩
  · intro st pd target fuel ms fin hres
    unfold GetToEnd.find_shortest_path_from_supernode at hres
    have hsound := bfs_loop_sound (GetToEnd.search pd target) st fuel
      [(st, [])] [GetToEnd.state_key st]
      (by
        intro e he
        rcases List.mem_singleton.mp he with rfl
        exact BfsPath.nil)
      ms fin hres
    rcases getToEnd_goal_test_eq_true hsound.1 with ⟨tp, hfind, hcover⟩
    exact ⟨hsound.2, tp, hfind, hcover⟩

/-- C10 witness: on a 2x1 board with a single unit target at the top, the
from-state BFS returns one move down, and the reached state's target anchor is
the bottom-left corner. -/
theorem C10_goal_hardcoded_bottom_left_witness :
    ∃ fin : List Piece,
      BfsPath (ShortestMoves.search ⟨2, 1, [⟨"T", .t1x1, 0, 0⟩], "T"⟩)
        [⟨"T", .t1x1, 0, 0⟩] [("T", Dir.down)] fin ∧
      ∃ tp, fin.find? (fun p => p.label == "T") = some tp ∧
        tp.row = ((2 : Nat) : Int) - 1 ∧ tp.col = 0 :=
  C10_goal_hardcoded_bottom_left.1 [⟨"T", .t1x1, 0, 0⟩]
    ⟨2, 1, [⟨"T", .t1x1, 0, 0⟩], "T"⟩ 10 [("T", Dir.down)]
    (by decide) (by decide)

/-! ## C1, C3, C4: concrete evaluations exhibiting the code bugs -/

/-- C1: on a 2x2 board with the unit target `T` at `(0,0)` over a blocker `B`
at `(1,0)`, the from-state BFS of `shortestMoves.py` returns the single move
`T down` — a move the validity-checking generator rejects (it lands on `B`) —
although no legal single move reaches the goal and a legal two-move sequence
(`B right`, then `T down`) does.  The returned sequence is therefore neither
legal nor of minimum legal length. -/
theorem C1_unchecked_bfs_beats_legal_minimum :
    ShortestMoves.find_shortest_target_path_from_state
        [⟨"T", .t1x1, 0, 0⟩, ⟨"B", .t1x1, 1, 0⟩]
        ⟨2, 2, [⟨"T", .t1x1, 0, 0⟩, ⟨"B", .t1x1, 1, 0⟩], "T"⟩ 10 =
      some [("T", Dir.down)] ∧
    (Dir.down, (1 : Int), (0 : Int)) ∉
      SimpleShortestMoves.get_all_possible_moves
        [⟨"T", .t1x1, 0, 0⟩, ⟨"B", .t1x1, 1, 0⟩] 2 2 "T" ∧
    ShortestMoves.goal_test 2 "T" [⟨"T", .t1x1, 0, 0⟩, ⟨"B", .t1x1, 1, 0⟩] = false ∧
    (SimpleShortestMoves.successors 2 2 [⟨"T", .t1x1, 0, 0⟩, ⟨"B", .t1x1, 1, 0⟩]).all
      (fun e => !(ShortestMoves.goal_test 2 "T" e.1)) = true ∧
    ([⟨"T", .t1x1, 0, 0⟩, ⟨"B", .t1x1, 1, 1⟩], ("B", Dir.right)) ∈
      SimpleShortestMoves.successors 2 2 [⟨"T", .t1x1, 0, 0⟩, ⟨"B", .t1x1, 1, 0⟩] ∧
    ([⟨"T", .t1x1, 1, 0⟩, ⟨"B", .t1x1, 1, 1⟩], ("T", Dir.down)) ∈
      SimpleShortestMoves.successors 2 2 [⟨"T", .t1x1, 0, 0⟩, ⟨"B", .t1x1, 1, 1⟩] ∧
    ShortestMoves.goal_test 2 "T" [⟨"T", .t1x1, 1, 0⟩, ⟨"B", .t1x1, 1, 1⟩] = true := by
  refine ⟨by decide, by decide, by decide, by decide, by decide, by decide, by decide⟩

/-- C3: `generate_hypernodes` checks overlap only among the chosen domino
placements; on a 1x2 grid holding a 1x2 domino and a fixed unit piece at
`(0,0)`, the single returned hyper-state stacks the domino on top of the fixed
piece. -/
theorem C3_hypernode_overlaps_fixed :
    ShortestMoves.generate_hypernodes
        ⟨1, 2, [⟨"A", .t1x2, 0, 0⟩, ⟨"F", .t1x1, 0, 0⟩], "A"⟩ =
      [[⟨"A", .t1x2, 0, 0⟩, ⟨"F", .t1x1, 0, 0⟩]] ∧
    ¬ DisjointPieces [⟨"A", .t1x2, 0, 0⟩, ⟨"F", .t1x1, 0, 0⟩] := by
  refine ⟨by decide, by decide⟩

/-- C4: on a fully packed 2x1 column (unit `T` over unit `B`) no piece has any
legal move and the goal is not satisfied, yet the from-state BFS of
`shortestMoves.py` expands its unchecked moves and returns the bogus one-move
"solution" `T down` instead of exhausting; the validity-checking BFS of
`simpleShortestMoves.py` does empty its frontier immediately (two fuel steps
suffice) and reports failure. -/
theorem C4_locked_state_not_exhaustive :
    SimpleShortestMoves.get_all_possible_moves
        [⟨"T", .t1x1, 0, 0⟩, ⟨"B", .t1x1, 1, 0⟩] 2 1 "T" = [] ∧
    SimpleShortestMoves.get_all_possible_moves
        [⟨"T", .t1x1, 0, 0⟩, ⟨"B", .t1x1, 1, 0⟩] 2 1 "B" = [] ∧
    ShortestMoves.goal_test 2 "T" [⟨"T", .t1x1, 0, 0⟩, ⟨"B", .t1x1, 1, 0⟩] = false ∧
    ShortestMoves.find_shortest_target_path_from_state
        [⟨"T", .t1x1, 0, 0⟩, ⟨"B", .t1x1, 1, 0⟩]
        ⟨2, 1, [⟨"T", .t1x1, 0, 0⟩, ⟨"B", .t1x1, 1, 0⟩], "T"⟩ 10 =
      some [("T", Dir.down)] ∧
    SimpleShortestMoves.find_shortest_target_path
        ⟨2, 1, [⟨"T", .t1x1, 0, 0⟩, ⟨"B", .t1x1, 1, 0⟩], "T"⟩ 2 = some [] := by
  refine ⟨by decide, by decide, by decide, by decide, by decide⟩

/-! ## C5: the from-state BFS conflates "already solved" with "no solution" -/

/-- C5 counterexample: the from-state BFS returns `[]` both for a state that
already satisfies the goal and for a state from which the goal predicate is
unsatisfiable (the target label is absent, so no reachable state can satisfy
it) — the two outcomes share the representation `[]`. -/
theorem C5_counterexample_ambiguous_empty :
    ShortestMoves.find_shortest_target_path_from_state [⟨"T", .t1x1, 1, 0⟩]
        ⟨2, 1, [⟨"T", .t1x1, 1, 0⟩], "T"⟩ 5 = some [] ∧
    ShortestMoves.find_shortest_target_path_from_state [⟨"B", .t1x1, 0, 0⟩]
        ⟨2, 1, [⟨"B", .t1x1, 0, 0⟩], "T"⟩ 5 = some [] ∧
    ([⟨"B", .t1x1, 0, 0⟩] : List Piece).find? (fun p => p.label == "T") = none := by
  refine ⟨by decide, by decide, by decide⟩

/-- C5 amended: `find_shortest_path_from_supernode` does distinguish the two
outcomes: a state already satisfying its goal yields the empty move sequence
with the solved state, and a goalless state without successors yields the
distinct `(None, None)` marker after the frontier empties. -/
theorem C5_supernode_markers_distinguishable :
    (∀ (st : GetToEnd.SuperState) (pd : PuzzleData) (target : String) (fuel : Nat),
      GetToEnd.goal_test pd target st = true →
      GetToEnd.find_shortest_path_from_supernode st pd target (fuel + 1) =
        some (some ([], st))) ∧
    (∀ (st : GetToEnd.SuperState) (pd : PuzzleData) (target : String) (fuel : Nat),
      GetToEnd.goal_test pd target st = false →
      GetToEnd.successors pd st = [] →
      GetToEnd.find_shortest_path_from_supernode st pd target (fuel + 2) =
        some none) := by
  constructor
  · intro st pd target fuel hgoal
    unfold GetToEnd.find_shortest_path_from_supernode
    rw [bfs_loop]
    simp [GetToEnd.search, hgoal]
  · intro st pd target fuel hgoal hsucc
    unfold GetToEnd.find_shortest_path_from_supernode
    rw [bfs_loop]
    simp only [GetToEnd.search, hgoal, hsucc, Bool.false_eq_true, if_false,
      List.foldl_nil]
    rw [bfs_loop]

/-- C5 witness: a solved single-piece super-state returns `([], state)`; a
locked, unsolved one returns the `(None, None)` marker. -/
theorem C5_supernode_markers_witness :
    GetToEnd.find_shortest_path_from_supernode ⟨[⟨"T", .t1x1, 1, 0⟩], []⟩
        ⟨2, 1, [⟨"T", .t1x1, 1, 0⟩], "T"⟩ "T" 3 =
      some (some ([], ⟨[⟨"T", .t1x1, 1, 0⟩], []⟩)) ∧
    GetToEnd.find_shortest_path_from_supernode ⟨[⟨"T", .t1x1, 0, 0⟩], [(1, 0)]⟩
        ⟨2, 1, [⟨"T", .t1x1, 0, 0⟩], "T"⟩ "T" 4 = some none := by
  constructor
  · exact C5_supernode_markers_distinguishable.1 _ _ _ 2 (by decide)
  · exact C5_supernode_markers_distinguishable.2 _ _ _ 2 (by decide) (by decide)

/-! ## C9: no configuration validation happens before enumeration -/

/-- C9 counterexample: a malformed configuration (its target label names no
piece) flows into `generate_hypernodes`, which produces enumeration output
instead of halting. -/
theorem C9_counterexample_malformed_enumerates :
    ([⟨"A", .t1x2, 0, 0⟩] : List Piece).find? (fun p => p.label == "Z") = none ∧
    ShortestMoves.generate_hypernodes ⟨1, 2, [⟨"A", .t1x2, 0, 0⟩], "Z"⟩ ≠ [] := by
  refine ⟨by decide, by decide⟩

/-- C9 amended: no validation precedes enumeration — `generate_hypernodes`
never consults the target label at all — and the only guard in the pipeline is
at search time: the from-state BFS returns `[]` immediately when the target
label is missing from the state. -/
theorem C9_no_validation_before_enumeration :
    (∀ pd1 pd2 : PuzzleData, pd1.rows = pd2.rows → pd1.cols = pd2.cols →
      pd1.pieces = pd2.pieces →
      ShortestMoves.generate_hypernodes pd1 = ShortestMoves.generate_hypernodes pd2) ∧
    (∀ (pieces : List Piece) (pd : PuzzleData) (fuel : Nat),
      (∀ p ∈ pieces, p.label ≠ pd.target) →
      ShortestMoves.find_shortest_target_path_from_state pieces pd fuel = some []) := by
  constructor
  · intro pd1 pd2 hr hc hp
    obtain ⟨r1, c1, ps1, t1⟩ := pd1
    obtain ⟨r2, c2, ps2, t2⟩ := pd2
    cases hr
    cases hc
    cases hp
    rfl
  · intro pieces pd fuel hmiss
    unfold ShortestMoves.find_shortest_target_path_from_state
    have hnone : (pieces.find? fun p => p.label == pd.target) = none := by
      rw [List.find?_eq_none]
      intro p hp
      simpa using hmiss p hp
    simp [hnone]

/-- C9 witness: with the unknown target label `Z`, the from-state BFS returns
`[]` with no search at all (zero fuel). -/
theorem C9_no_validation_witness :
    ShortestMoves.find_shortest_target_path_from_state [⟨"A", .t1x2, 0, 0⟩]
      ⟨1, 2, [⟨"A", .t1x2, 0, 0⟩], "Z"⟩ 0 = some [] :=
  C9_no_validation_before_enumeration.2 [⟨"A", .t1x2, 0, 0⟩]
    ⟨1, 2, [⟨"A", .t1x2, 0, 0⟩], "Z"⟩ 0 (by decide)

/-! ## Characterising the validity-checked move generator -/

theorem mem_cells_at (r c : Int) (h w : Nat) (cell : Int × Int) :
    cell ∈ cells_at r c h w ↔
      r ≤ cell.1 ∧ cell.1 < r + h ∧ c ≤ cell.2 ∧ cell.2 < c + w := by
  obtain ⟨x, y⟩ := cell
  unfold cells_at
  rw [List.mem_flatMap]
  constructor
  · rintro ⟨i, hi, hmem⟩
    rw [List.mem_map] at hmem
    obtain ⟨j, hj, hcell⟩ := hmem
    rw [List.mem_range] at hi hj
    rw [Prod.mk.injEq] at hcell
    obtain ⟨hx, hy⟩ := hcell
    simp only []
    omega
  · rintro ⟨h1, h2, h3, h4⟩
    refine ⟨(x - r).toNat, ?_, ?_⟩
    · rw [List.mem_range]
      omega
    · rw [List.mem_map]
      refine ⟨(y - c).toNat, ?_, ?_⟩
      · rw [List.mem_range]
        omega
      · rw [Prod.mk.injEq]
        constructor <;> omega

theorem piece_height_pos (p : Piece) : 0 < p.height := by
  unfold Piece.height
  cases p.piece_type <;> simp [get_piece_dimensions]

theorem piece_width_pos (p : Piece) : 0 < p.width := by
  unfold Piece.width
  cases p.piece_type <;> simp [get_piece_dimensions]

/-- One right-extension step of the board dictionary. -/
theorem create_board_snoc (ps : List Piece) (q : Piece) (cell : Int × Int) :
    create_board_representation (ps ++ [q]) cell =
      if cell ∈ piece_cells q then some q.label
      else create_board_representation ps cell := by
  unfold create_board_representation
  rw [List.foldl_append]
  rfl

/-- Under the disjointness invariant the board dictionary reads back exactly
the unique covering piece. -/
theorem create_board_eq_some {pieces : List Piece} (hd : DisjointPieces pieces)
    (cell : Int × Int) (l : String) :
    create_board_representation pieces cell = some l ↔
      ∃ q ∈ pieces, cell ∈ piece_cells q ∧ q.label = l := by
  induction pieces using List.reverseRecOn with
  | nil =>
    constructor
    · intro h; cases h
    · rintro ⟨q, hq, _⟩; cases hq
  | append_singleton ps q ih =>
    have hps : DisjointPieces ps := by
      unfold DisjointPieces at hd ⊢
      exact (List.pairwise_append.mp hd).1
    have hqs : ∀ x ∈ ps, ∀ cell, cell ∈ piece_cells x → cell ∉ piece_cells q := by
      intro x hx
      exact (List.pairwise_append.mp hd).2.2 x hx q (List.mem_singleton_self _)
    rw [create_board_snoc]
    by_cases hc : cell ∈ piece_cells q
    · rw [if_pos hc]
      constructor
      · intro h
        injection h with h
        exact ⟨q, List.mem_append_right _ (List.mem_singleton_self _), hc, h⟩
      · rintro ⟨x, hx, hxc, hxl⟩
        rcases List.mem_append.mp hx with hx' | hx'
        · exact absurd hc (hqs x hx' cell hxc)
        · rcases List.mem_singleton.mp hx' with rfl
          rw [hxl]
    · rw [if_neg hc]
      rw [ih hps]
      constructor
      · rintro ⟨x, hx, hxc, hxl⟩
        exact ⟨x, List.mem_append_left _ hx, hxc, hxl⟩
      · rintro ⟨x, hx, hxc, hxl⟩
        rcases List.mem_append.mp hx with hx' | hx'
        · exact ⟨x, hx', hxc, hxl⟩
        · rcases List.mem_singleton.mp hx' with rfl
          exact absurd hxc hc

/-- `is_valid_move` holds exactly when the shifted footprint stays on the grid
and intersects no differently-labelled piece. -/
theorem is_valid_move_iff {pieces : List Piece} (hd : DisjointPieces pieces)
    (p : Piece) (nr nc : Int) (rows cols : Nat) :
    is_valid_move p nr nc (create_board_representation pieces) rows cols = true ↔
      ((∀ cell ∈ cells_at nr nc p.height p.width, cell_in_grid rows cols cell) ∧
        ∀ q ∈ pieces, q.label ≠ p.label →
          ∀ cell ∈ cells_at nr nc p.height p.width, cell ∉ piece_cells q) := by
  unfold is_valid_move
  by_cases hb : nr < 0 ∨ nc < 0 ∨ nr + p.height > rows ∨ nc + p.width > cols
  · rw [if_pos hb]
    constructor
    · intro h; cases h
    · rintro ⟨hgrid, _⟩
      exfalso
      have hcorner : (nr, nc) ∈ cells_at nr nc p.height p.width := by
        rw [mem_cells_at]
        have h1 := piece_height_pos p
        have h2 := piece_width_pos p
        simp only []
        omega
      have hlast : (nr + p.height - 1, nc + p.width - 1) ∈
          cells_at nr nc p.height p.width := by
        rw [mem_cells_at]
        have h1 := piece_height_pos p
        have h2 := piece_width_pos p
        simp only []
        omega
      have g1 := hgrid _ hcorner
      have g2 := hgrid _ hlast
      unfold cell_in_grid at g1 g2
      simp only [] at g1 g2
      omega
  · rw [if_neg hb]
    rw [List.all_eq_true]
    constructor
    · intro h
      constructor
      · intro cell hcell
        rw [mem_cells_at] at hcell
        unfold cell_in_grid
        omega
      · intro q hq hql cell hcell hqc
        have hcheck := h cell hcell
        have hboard : create_board_representation pieces cell = some q.label :=
          (create_board_eq_some hd cell q.label).mpr ⟨q, hq, hqc, rfl⟩
        rw [hboard] at hcheck
        simp only [beq_iff_eq] at hcheck
        exact hql hcheck
    · rintro ⟨_, hnocol⟩ cell hcell
      rcases hbd : create_board_representation pieces cell with _ | l
      · simp
      · simp only [beq_iff_eq]
        rcases (create_board_eq_some hd cell l).mp hbd with ⟨q, hq, hqc, rfl⟩
        by_contra hne
        exact hnocol q hq hne cell hcell hqc

/-! ## The per-label dictionary built by the fold -/

theorem dict_fold_notin {β : Type} (f : Piece → β) (l : String) :
    ∀ (pieces : List Piece) (d0 : String → β), (∀ q ∈ pieces, q.label ≠ l) →
      (pieces.foldl (fun d q => fun s => if s = q.label then f q else d s) d0) l =
        d0 l := by
  intro pieces
  induction pieces with
  | nil => intro d0 _; rfl
  | cons q qs ih =>
    intro d0 hne
    rw [List.foldl_cons]
    rw [ih _ fun x hx => hne x (List.mem_cons_of_mem _ hx)]
    have : l ≠ q.label := fun h => hne q (List.mem_cons_self _ _) h.symm
    simp [this]

theorem dict_fold_lookup {β : Type} (f : Piece → β) :
    ∀ (pieces : List Piece), NodupLabels pieces → ∀ p ∈ pieces, ∀ (d0 : String → β),
      (pieces.foldl (fun d q => fun s => if s = q.label then f q else d s) d0)
        p.label = f p := by
  intro pieces
  induction pieces with
  | nil => intro _ p hp; cases hp
  | cons q qs ih =>
    intro hnd p hp d0
    have hnd' : NodupLabels qs ∧ q.label ∉ qs.map Piece.label := by
      unfold NodupLabels at hnd ⊢
      rw [List.map_cons, List.nodup_cons] at hnd
      exact ⟨hnd.2, hnd.1⟩
    rw [List.foldl_cons]
    rcases List.mem_cons.mp hp with rfl | hp'
    · rw [dict_fold_notin]
      · simp
      · intro x hx hxl
        exact hnd'.2 (hxl ▸ List.mem_map_of_mem Piece.label hx)
    · exact ih hnd'.1 p hp' _

/-- Under distinct labels the final dictionary returns, at a piece's label, the
moves computed for that piece. -/
theorem get_all_possible_moves_lookup {pieces : List Piece}
    (hnd : NodupLabels pieces) {p : Piece} (hp : p ∈ pieces) (rows cols : Nat) :
    SimpleShortestMoves.get_all_possible_moves pieces rows cols p.label =
      valid_piece_moves (create_board_representation pieces) rows cols p := by
  unfold SimpleShortestMoves.get_all_possible_moves
  exact dict_fold_lookup _ pieces hnd p hp _

/-- Membership in the per-piece filtered move list, by direction. -/
theorem mem_valid_piece_moves (board : Int × Int → Option String)
    (rows cols : Nat) (p : Piece) (d : Dir) (nr nc : Int) :
    (d, nr, nc) ∈ valid_piece_moves board rows cols p ↔
      nr = p.row + (dir_delta d).1 ∧ nc = p.col + (dir_delta d).2 ∧
        is_valid_move p nr nc board rows cols = true := by
  unfold valid_piece_moves
  rw [List.mem_filterMap]
  constructor
  · rintro ⟨m, hm, hf⟩
    fin_cases hm <;>
      · rw [Option.ite_none_right_eq_some] at hf
        obtain ⟨hv, hf⟩ := hf
        injection hf with hf
        injection hf with h1 hf
        injection hf with h2 h3
        subst h1
        subst h2
        subst h3
        exact ⟨rfl, rfl, hv⟩
  · rintro ⟨h1, h2, h3⟩
    subst h1
    subst h2
    cases d with
    | up =>
      refine ⟨(Dir.up, -1, 0), by simp [MOVES], ?_⟩
      rw [Option.ite_none_right_eq_some]
      exact ⟨h3, rfl⟩
    | down =>
      refine ⟨(Dir.down, 1, 0), by simp [MOVES], ?_⟩
      rw [Option.ite_none_right_eq_some]
      exact ⟨h3, rfl⟩
    | left =>
      refine ⟨(Dir.left, 0, -1), by simp [MOVES], ?_⟩
      rw [Option.ite_none_right_eq_some]
      exact ⟨h3, rfl⟩
    | right =>
      refine ⟨(Dir.right, 0, 1), by simp [MOVES], ?_⟩
      rw [Option.ite_none_right_eq_some]
      exact ⟨h3, rfl⟩

/-- C2: for the validity-checking generator (`simpleShortestMoves.py`, whose
move-generation code `potentialMoves.py` repeats verbatim), on a `BoardState`
(distinct labels, pairwise-disjoint footprints) the dictionary holds a
`(direction, new_row, new_col)` entry for a piece exactly when the shifted
anchor is one step in that direction, the shifted footprint lies inside
`[0, rows) × [0, cols)`, and it occupies no cell of a differently-labelled
piece. -/
theorem C2_move_generator_iff :
    ∀ (pieces : List Piece) (rows cols : Nat) (p : Piece) (d : Dir) (nr nc : Int),
      NodupLabels pieces → DisjointPieces pieces → p ∈ pieces →
      ((d, nr, nc) ∈
          SimpleShortestMoves.get_all_possible_moves pieces rows cols p.label ↔
        (nr = p.row + (dir_delta d).1 ∧ nc = p.col + (dir_delta d).2 ∧
          (∀ cell ∈ cells_at nr nc p.height p.width, cell_in_grid rows cols cell) ∧
          ∀ q ∈ pieces, q.label ≠ p.label →
            ∀ cell ∈ cells_at nr nc p.height p.width, cell ∉ piece_cells q)) := by
  intro pieces rows cols p d nr nc hnd hdisj hp
  rw [get_all_possible_moves_lookup hnd hp]
  rw [mem_valid_piece_moves]
  rw [is_valid_move_iff hdisj]

/-- C2 counterexample: the generator of `shortestMoves.py` (also named
`get_all_possible_moves`) violates the claimed equivalence — on a 1x1 grid it
reports an up-move for the lone piece although the shifted footprint leaves
the grid. -/
theorem C2_counterexample_unchecked_generator :
    (Dir.up, (-1 : Int), (0 : Int)) ∈
      ShortestMoves.get_all_possible_moves [⟨"T", .t1x1, 0, 0⟩] 1 1 "T" ∧
    ((-1 : Int), (0 : Int)) ∈ cells_at (-1) 0 1 1 ∧
    ¬ cell_in_grid 1 1 ((-1 : Int), (0 : Int)) := by
  refine ⟨by decide, by decide, by decide⟩

/-- C2 witness: on a 2x1 grid the lone unit piece's down-move is produced, and
the equivalence certifies it. -/
theorem C2_move_generator_iff_witness :
    (Dir.down, (1 : Int), (0 : Int)) ∈
      SimpleShortestMoves.get_all_possible_moves [⟨"T", .t1x1, 0, 0⟩] 2 1
        (Piece.label ⟨"T", .t1x1, 0, 0⟩) := by
  have h := C2_move_generator_iff [⟨"T", .t1x1, 0, 0⟩] 2 1 ⟨"T", .t1x1, 0, 0⟩
    Dir.down 1 0 (by decide) (by decide) (by decide)
  exact h.mpr (by decide)

/-- C8 amended: the code has no mobility flag.  The move generator computes
legality-filtered moves for every piece of the state — in particular for unit
(1x1) pieces, the shape class of both the pieces `generate_hypernodes` keeps
in place ("fixed") and the obstacle blocks `generate_supernodes` adds.  A unit
piece with a legal move therefore never reports an empty move list. -/
theorem C8_unit_pieces_have_moves :
    ∀ (pieces : List Piece) (rows cols : Nat) (p : Piece) (d : Dir) (nr nc : Int),
      NodupLabels pieces → DisjointPieces pieces → p ∈ pieces →
      p.piece_type = PieceType.t1x1 →
      ((d, nr, nc) ∈
          SimpleShortestMoves.get_all_possible_moves pieces rows cols p.label ↔
        (nr = p.row + (dir_delta d).1 ∧ nc = p.col + (dir_delta d).2 ∧
          (∀ cell ∈ cells_at nr nc p.height p.width, cell_in_grid rows cols cell) ∧
          ∀ q ∈ pieces, q.label ≠ p.label →
            ∀ cell ∈ cells_at nr nc p.height p.width, cell ∉ piece_cells q)) := by
  intro pieces rows cols p d nr nc hnd hdisj hp _
  rw [get_all_possible_moves_lookup hnd hp, mem_valid_piece_moves,
    is_valid_move_iff hdisj]

/-- C8 counterexample: a unit piece — exactly what `generate_hypernodes`
splits off as "fixed" (line 124) — receives a non-empty move list from the
move generator, refuting "every piece marked fixed receives an empty move
list". -/
theorem C8_counterexample_fixed_class_moves :
    (⟨"F", .t1x1, 0, 0⟩ : Piece) ∈
      ShortestMoves.hyper_fixed ⟨2, 2, [⟨"F", .t1x1, 0, 0⟩], "F"⟩ ∧
    SimpleShortestMoves.get_all_possible_moves [⟨"F", .t1x1, 0, 0⟩] 2 2 "F" ≠ [] := by
  refine ⟨by decide, by decide⟩

/-- C8 witness: an obstacle block labelled like those `generate_supernodes`
adds is movable — its legal down-move is generated. -/
theorem C8_unit_pieces_have_moves_witness :
    (Dir.down, (1 : Int), (0 : Int)) ∈
      SimpleShortestMoves.get_all_possible_moves
        [⟨"Block1", .t1x1, 0, 0⟩] 2 1 (Piece.label ⟨"Block1", .t1x1, 0, 0⟩) := by
  have h := C8_unit_pieces_have_moves [⟨"Block1", .t1x1, 0, 0⟩] 2 1
    ⟨"Block1", .t1x1, 0, 0⟩ Dir.down 1 0 (by decide) (by decide) (by decide) (by decide)
  exact h.mpr (by decide)

/-! ## The extension enumerator -/

theorem combinations_length {α : Type} :
    ∀ (k : Nat) (l : List α),
      (ShortestMoves.combinations k l).length = l.length.choose k := by
  intro k l
  induction l generalizing k with
  | nil => cases k <;> simp [ShortestMoves.combinations]
  | cons x xs ih =>
    cases k with
    | zero => simp [ShortestMoves.combinations]
    | succ k =>
      simp only [ShortestMoves.combinations, List.length_append, List.length_map,
        ih, List.length_cons]
      rw [Nat.choose_succ_succ]

theorem combinations_sublist {α : Type} :
    ∀ (k : Nat) (l c : List α), c ∈ ShortestMoves.combinations k l →
      c.Sublist l ∧ c.length = k := by
  intro k l
  induction l generalizing k with
  | nil =>
    intro c hc
    cases k with
    | zero =>
      simp only [ShortestMoves.combinations, List.mem_singleton] at hc
      subst hc
      exact ⟨List.Sublist.refl _, rfl⟩
    | succ k => simp [ShortestMoves.combinations] at hc
  | cons x xs ih =>
    intro c hc
    cases k with
    | zero =>
      simp only [ShortestMoves.combinations, List.mem_singleton] at hc
      subst hc
      exact ⟨List.nil_sublist _, rfl⟩
    | succ k =>
      simp only [ShortestMoves.combinations, List.mem_append, List.mem_map] at hc
      rcases hc with ⟨c', hc', rfl⟩ | hc
      · obtain ⟨hsub, hlen⟩ := ih k c' hc'
        exact ⟨hsub.cons₂ x, by simp [hlen]⟩
      · obtain ⟨hsub, hlen⟩ := ih (k + 1) c hc
        exact ⟨hsub.cons x, hlen⟩

theorem total_cells_nodup (rows cols : Nat) :
    (ShortestMoves.total_cells rows cols).Nodup := by
  unfold ShortestMoves.total_cells
  rw [List.nodup_flatMap]
  constructor
  · intro r _
    refine List.Nodup.map ?_ (List.nodup_range _)
    intro a b hab
    injection hab with h1 h2
    exact Nat.cast_injective h2
  · refine (List.pairwise_lt_range _).imp ?_
    intro r1 r2 hlt cell h1 h2
    rw [List.mem_map] at h1 h2
    obtain ⟨c1, _, hc1⟩ := h1
    obtain ⟨c2, _, hc2⟩ := h2
    rw [← hc2] at hc1
    injection hc1 with ha hb
    have h12 : r1 = r2 := Nat.cast_injective ha
    omega

theorem empty_spaces_nodup (hs : List Piece) (pd : PuzzleData) :
    (ShortestMoves.empty_spaces hs pd).Nodup := by
  unfold ShortestMoves.empty_spaces
  exact (total_cells_nodup pd.rows pd.cols).filter _

theorem mem_empty_spaces {hs : List Piece} {pd : PuzzleData} {cell : Int × Int}
    (h : cell ∈ ShortestMoves.empty_spaces hs pd) :
    cell ∈ ShortestMoves.total_cells pd.rows pd.cols ∧
      cell ∉ ShortestMoves.occupied_cells hs := by
  unfold ShortestMoves.empty_spaces at h
  rw [List.mem_filter] at h
  refine ⟨h.1, ?_⟩
  have h2 := h.2
  simpa using h2

/-- C6: the extension enumerator yields exactly `C(E, 4)` super-states for `E`
empty cells (so the empty list whenever `E < 4`), and every returned
super-state is the hyper-state plus exactly 4 unit blocks on distinct cells
that were empty (on the grid and unoccupied) in the hyper-state, one
super-state per 4-combination of the empty cells. -/
theorem C6_extension_enumerator :
    ∀ (hyper : List Piece) (pd : PuzzleData),
      (ShortestMoves.generate_supernodes hyper pd).length =
          (ShortestMoves.empty_spaces hyper pd).length.choose 4 ∧
      ((ShortestMoves.empty_spaces hyper pd).length < 4 →
        ShortestMoves.generate_supernodes hyper pd = []) ∧
      ∀ s ∈ ShortestMoves.generate_supernodes hyper pd,
        ∃ cells : List (Int × Int),
          cells.Sublist (ShortestMoves.empty_spaces hyper pd) ∧
          cells.length = 4 ∧ cells.Nodup ∧
          (∀ cell ∈ cells, cell ∈ ShortestMoves.total_cells pd.rows pd.cols ∧
            cell ∉ ShortestMoves.occupied_cells hyper) ∧
          s = hyper ++ (cells.enum.map fun ic => ShortestMoves.make_block ic.1 ic.2) := by
  intro hyper pd
  refine ⟨?_, ?_, ?_⟩
  · unfold ShortestMoves.generate_supernodes
    by_cases hlen : (ShortestMoves.empty_spaces hyper pd).length ≥ 4
    · rw [if_pos hlen, List.length_map, combinations_length]
    · rw [if_neg hlen]
      have hz : (ShortestMoves.empty_spaces hyper pd).length.choose 4 = 0 :=
        Nat.choose_eq_zero_of_lt (by omega)
      rw [hz]
      rfl
  · intro hlt
    unfold ShortestMoves.generate_supernodes
    rw [if_neg (by omega)]
  · intro s hs
    unfold ShortestMoves.generate_supernodes at hs
    by_cases hlen : (ShortestMoves.empty_spaces hyper pd).length ≥ 4
    · rw [if_pos hlen, List.mem_map] at hs
      obtain ⟨combo, hcombo, rfl⟩ := hs
      obtain ⟨hsub, hlen4⟩ := combinations_sublist 4 _ combo hcombo
      refine ⟨combo, hsub, hlen4, hsub.nodup (empty_spaces_nodup hyper pd), ?_, rfl⟩
      intro cell hcell
      exact mem_empty_spaces (hsub.subset hcell)
    · rw [if_neg hlen] at hs
      cases hs

/-- C6 witness: an empty hyper-state on a 2x2 grid has 4 empty cells, hence
`C(4,4) = 1` super-state, made of exactly the four blocks on those cells. -/
theorem C6_extension_enumerator_witness :
    (ShortestMoves.generate_supernodes [] ⟨2, 2, [], "T"⟩).length =
        (ShortestMoves.empty_spaces [] ⟨2, 2, [], "T"⟩).length.choose 4 ∧
    ∃ cells : List (Int × Int),
      cells.Sublist (ShortestMoves.empty_spaces [] ⟨2, 2, [], "T"⟩) ∧
      cells.length = 4 ∧ cells.Nodup ∧
      (∀ cell ∈ cells, cell ∈ ShortestMoves.total_cells 2 2 ∧
        cell ∉ ShortestMoves.occupied_cells []) ∧
      [ShortestMoves.make_block 0 (0, 0), ShortestMoves.make_block 1 (0, 1),
          ShortestMoves.make_block 2 (1, 0), ShortestMoves.make_block 3 (1, 1)] =
        [] ++ (cells.enum.map fun ic => ShortestMoves.make_block ic.1 ic.2) := by
  refine ⟨(C6_extension_enumerator [] ⟨2, 2, [], "T"⟩).1, ?_⟩
  exact (C6_extension_enumerator [] ⟨2, 2, [], "T"⟩).2.2
    [ShortestMoves.make_block 0 (0, 0), ShortestMoves.make_block 1 (0, 1),
      ShortestMoves.make_block 2 (1, 0), ShortestMoves.make_block 3 (1, 1)]
    (by decide)

section SanityChecks

example : board_to_tuple
    [⟨"B", .t1x1, 1, 0⟩, ⟨"A", .t1x1, 0, 0⟩] =
    [("A", 0, 0), ("B", 1, 0)] := by decide

example : is_valid_move ⟨"A", .t1x2, 0, 0⟩ 0 1
    (create_board_representation [⟨"A", .t1x2, 0, 0⟩]) 1 3 = true := by decide

example : is_valid_move ⟨"A", .t1x2, 0, 0⟩ 0 1
    (create_board_representation [⟨"A", .t1x2, 0, 0⟩, ⟨"B", .t1x1, 0, 2⟩]) 1 3 = false := by
  decide

end SanityChecks
